import Mathlib

/-!
Verification of the distance-map core of `evcouplings/compare/distances.py`.

The development shallowly embeds the numeric kernel `_distances` (a stateful
row-major fill of an output matrix, including the symmetric copy branch) and
the `DistanceMap` class (identifier lookup, construction from chains,
csv/npy persistence, and the unimplemented stubs), and proves or refutes the
frozen claims about them.
-/

namespace Distances

/-- Three-dimensional coordinates of one atom, a triple of reals. -/
abbrev Point3 : Type := ℝ × ℝ × ℝ

/-- Atom coordinate lookup: maps an atom index into the chain's coordinate
matrix to its 3D position (the model of the `coords_i` matrix rows). -/
abbrev Coords : Type := ℕ → Point3

/-- Euclidean distance between two 3D points as computed inside the kernel:
`np.sqrt(np.sum((coords_i[a_i] - coords_j[a_j]) ** 2))`, that is the square
root of the sum of squared componentwise differences. -/
noncomputable def euclid (p q : Point3) : ℝ :=
  Real.sqrt ((p.1 - q.1) ^ 2 + (p.2.1 - q.2.1) ^ 2 + (p.2.2 - q.2.2) ^ 2)

/-- The constant `LARGE_DIST = 1000000` from the source, used as the initial
value of the running minimum for each residue pair. -/
def LARGE_DIST : ℝ := 1000000

/-- Python's `range(r[0], r[1] + 1)`: the inclusive atom index range of one
residue, empty when `r.2 + 1 ≤ r.1`. -/
def atomRange (r : ℕ × ℕ) : List ℕ :=
  List.range' r.1 (r.2 + 1 - r.1)

/-- The inner double loop of `_distances` for one residue pair: starting from
`LARGE_DIST`, fold the running minimum of the Euclidean distances of all atom
pairs drawn from the two inclusive ranges. -/
noncomputable def minDistCell (coords_i coords_j : Coords) (ri rj : ℕ × ℕ) : ℝ :=
  (atomRange ri).foldl
    (fun acc a_i =>
      (atomRange rj).foldl
        (fun m a_j => min m (euclid (coords_i a_i) (coords_j a_j))) acc)
    LARGE_DIST

/-- Point update of the output matrix, modelling `dists[i, j] = v`. -/
def updMat (M : ℕ → ℕ → ℝ) (i j : ℕ) (v : ℝ) : ℕ → ℕ → ℝ :=
  fun a b => if a = i ∧ b = j then v else M a b

/-- One iteration of the body of the double residue loop of `_distances`:
in the symmetric case with `i >= j` copy the previously written entry
`dists[j, i]`, otherwise write the freshly computed minimum atom distance. -/
noncomputable def cellStep (residues_i residues_j : List (ℕ × ℕ))
    (coords_i coords_j : Coords) (symmetric : Bool)
    (M : ℕ → ℕ → ℝ) (ij : ℕ × ℕ) : ℕ → ℕ → ℝ :=
  if symmetric ∧ ij.2 ≤ ij.1 then
    updMat M ij.1 ij.2 (M ij.2 ij.1)
  else
    updMat M ij.1 ij.2
      (minDistCell coords_i coords_j
        (residues_i.getD ij.1 (0, 0)) (residues_j.getD ij.2 (0, 0)))

/-- Row-major iteration order of the double residue loop. -/
def cellOrder (N_i N_j : ℕ) : List (ℕ × ℕ) :=
  (List.range N_i).flatMap fun i => (List.range N_j).map fun j => (i, j)

/-- The kernel `_distances`: starting from the zero matrix, process every
residue pair in row-major order with `cellStep`.  The result models the
returned `dists` array as a total function (cells never written stay `0`). -/
noncomputable def _distances (residues_i : List (ℕ × ℕ)) (coords_i : Coords)
    (residues_j : List (ℕ × ℕ)) (coords_j : Coords) (symmetric : Bool) :
    ℕ → ℕ → ℝ :=
  (cellOrder residues_i.length residues_j.length).foldl
    (cellStep residues_i residues_j coords_i coords_j symmetric)
    (fun _ _ => 0)

/-- Closed-form value of one in-range cell of the kernel output (derived
characterization, proved equal to `_distances` below): the symmetric branch
leaves the diagonal at `0` and mirrors the strict lower triangle, every other
cell holds the freshly computed minimum. -/
noncomputable def specCell (residues_i residues_j : List (ℕ × ℕ))
    (coords_i coords_j : Coords) (symmetric : Bool) (i j : ℕ) : ℝ :=
  if symmetric ∧ j ≤ i then
    if i = j then 0
    else minDistCell coords_i coords_j
      (residues_i.getD j (0, 0)) (residues_j.getD i (0, 0))
  else
    minDistCell coords_i coords_j
      (residues_i.getD i (0, 0)) (residues_j.getD j (0, 0))

/-- Closed form of the whole kernel output, zero outside the matrix bounds. -/
noncomputable def distSpec (residues_i residues_j : List (ℕ × ℕ))
    (coords_i coords_j : Coords) (symmetric : Bool) : ℕ → ℕ → ℝ :=
  fun i j =>
    if i < residues_i.length ∧ j < residues_j.length then
      specCell residues_i residues_j coords_i coords_j symmetric i j
    else 0

/-- Partially filled matrix after completing rows `0..n-1` and, in row `n`,
columns `0..m-1` (proof infrastructure for the fill invariant). -/
noncomputable def fillUpTo (residues_i residues_j : List (ℕ × ℕ))
    (coords_i coords_j : Coords) (symmetric : Bool) (n m : ℕ) : ℕ → ℕ → ℝ :=
  fun i j =>
    if (i < n ∧ j < residues_j.length) ∨ (i = n ∧ j < m) then
      specCell residues_i residues_j coords_i coords_j symmetric i j
    else 0

/-- Folding over a flatMap is the nested fold. -/
theorem foldl_flatMap {α β γ : Type} (l : List β) (g : β → List γ)
    (f : α → γ → α) (init : α) :
    (l.flatMap g).foldl f init = l.foldl (fun x b => (g b).foldl f x) init := by
  induction l generalizing init with
  | nil => rfl
  | cons hd tl ih =>
    simp only [List.flatMap_cons, List.foldl_append, List.foldl_cons]
    exact ih _

/-- The fold over the row-major cell order is the nested row/column fold. -/
theorem foldl_cellOrder {α : Type} (f : α → ℕ × ℕ → α) (a b : ℕ) (init : α) :
    (cellOrder a b).foldl f init
      = (List.range a).foldl
          (fun M i => (List.range b).foldl (fun N j => f N (i, j)) M) init := by
  rw [cellOrder, foldl_flatMap]
  congr 1
  funext M i
  rw [List.foldl_map]

/-- One loop-body iteration writes a single cell, whose value is the copied
mirror entry in the symmetric upper branch and the fresh minimum otherwise. -/
theorem cellStep_eq (residues_i residues_j : List (ℕ × ℕ))
    (coords_i coords_j : Coords) (symmetric : Bool)
    (M : ℕ → ℕ → ℝ) (n m : ℕ) :
    cellStep residues_i residues_j coords_i coords_j symmetric M (n, m)
      = updMat M n m
          (if symmetric ∧ m ≤ n then M m n
           else minDistCell coords_i coords_j
             (residues_i.getD n (0, 0)) (residues_j.getD m (0, 0))) := by
  simp only [cellStep]
  exact (apply_ite (updMat M n m) _ _ _).symm

/-- Processing cell `(n, m)` advances the fill invariant by one column. -/
theorem cellStep_fill (residues_i residues_j : List (ℕ × ℕ))
    (coords_i coords_j : Coords) (symmetric : Bool)
    (hN : symmetric = true → residues_i.length = residues_j.length)
    (n m : ℕ) (hn : n < residues_i.length) (hm : m < residues_j.length) :
    cellStep residues_i residues_j coords_i coords_j symmetric
        (fillUpTo residues_i residues_j coords_i coords_j symmetric n m) (n, m)
      = fillUpTo residues_i residues_j coords_i coords_j symmetric n (m + 1) := by
  rw [cellStep_eq]
  funext a b
  simp only [updMat]
  by_cases hab : a = n ∧ b = m
  · obtain ⟨ha, hb⟩ := hab
    subst ha; subst hb
    rw [if_pos ⟨rfl, rfl⟩]
    by_cases hc : symmetric = true ∧ b ≤ a
    · rw [if_pos hc]
      by_cases hd : a = b
      · subst hd
        simp [fillUpTo, specCell, hc]
      · have hba : b < a := lt_of_le_of_ne hc.2 (fun h => hd h.symm)
        have haj : a < residues_j.length := by
          rw [← hN hc.1]; exact hn
        have hnab : ¬ a ≤ b := by omega
        simp [fillUpTo, specCell, hc, hba, haj, hd, hnab, Nat.lt_succ_self b]
    · rw [if_neg hc]
      simp [fillUpTo, specCell, hc, Nat.lt_succ_self b]
  · rw [if_neg hab]
    simp only [fillUpTo]
    exact if_congr (by omega) rfl rfl

/-- Completing the first `m` columns of row `n` realizes the fill invariant. -/
theorem row_fill (residues_i residues_j : List (ℕ × ℕ))
    (coords_i coords_j : Coords) (symmetric : Bool)
    (hN : symmetric = true → residues_i.length = residues_j.length)
    (n : ℕ) (hn : n < residues_i.length) :
    ∀ m, m ≤ residues_j.length →
      (List.range m).foldl
          (fun M j => cellStep residues_i residues_j coords_i coords_j
            symmetric M (n, j))
          (fillUpTo residues_i residues_j coords_i coords_j symmetric n 0)
        = fillUpTo residues_i residues_j coords_i coords_j symmetric n m := by
  intro m
  induction m with
  | zero => intro _; rfl
  | succ m ih =>
    intro hm
    rw [List.range_succ, List.foldl_append, ih (Nat.le_of_succ_le hm),
      List.foldl_cons, List.foldl_nil]
    exact cellStep_fill residues_i residues_j coords_i coords_j symmetric hN
      n m hn (Nat.lt_of_succ_le hm)

/-- Finishing a row restates the invariant at the start of the next row. -/
theorem fill_row_end (residues_i residues_j : List (ℕ × ℕ))
    (coords_i coords_j : Coords) (symmetric : Bool) (n : ℕ) :
    fillUpTo residues_i residues_j coords_i coords_j symmetric
        n residues_j.length
      = fillUpTo residues_i residues_j coords_i coords_j symmetric (n + 1) 0 := by
  funext a b
  simp only [fillUpTo]
  exact if_congr (by omega) rfl rfl

/-- Completing the first `n` rows realizes the fill invariant. -/
theorem outer_fill (residues_i residues_j : List (ℕ × ℕ))
    (coords_i coords_j : Coords) (symmetric : Bool)
    (hN : symmetric = true → residues_i.length = residues_j.length) :
    ∀ n, n ≤ residues_i.length →
      (List.range n).foldl
          (fun M i => (List.range residues_j.length).foldl
            (fun N j => cellStep residues_i residues_j coords_i coords_j
              symmetric N (i, j)) M)
          (fun _ _ => 0)
        = fillUpTo residues_i residues_j coords_i coords_j symmetric n 0 := by
  intro n
  induction n with
  | zero =>
    intro _
    funext a b
    simp only [fillUpTo]
    exact (if_neg (by omega)).symm
  | succ n ih =>
    intro hn
    rw [List.range_succ, List.foldl_append, ih (Nat.le_of_succ_le hn),
      List.foldl_cons, List.foldl_nil,
      row_fill residues_i residues_j coords_i coords_j symmetric hN
        n (Nat.lt_of_succ_le hn) residues_j.length (le_refl _),
      fill_row_end]

/-- Master characterization of the kernel: whenever the symmetric flag is only
used with equal axis lengths (as in every source call site), the stateful
row-major fill of `_distances` produces exactly the closed form `distSpec`. -/
theorem _distances_eq (residues_i residues_j : List (ℕ × ℕ))
    (coords_i coords_j : Coords) (symmetric : Bool)
    (hN : symmetric = true → residues_i.length = residues_j.length) :
    _distances residues_i coords_i residues_j coords_j symmetric
      = distSpec residues_i residues_j coords_i coords_j symmetric := by
  simp only [_distances]
  rw [foldl_cellOrder,
    outer_fill residues_i residues_j coords_i coords_j symmetric hN
      residues_i.length (le_refl _)]
  funext a b
  simp only [fillUpTo, distSpec]
  exact if_congr (by omega) rfl rfl

/-- The list of atom index pairs visited by the inner double loop. -/
def atomPairs (ri rj : ℕ × ℕ) : List (ℕ × ℕ) :=
  (atomRange ri).flatMap fun a => (atomRange rj).map fun b => (a, b)

/-- The nested running-minimum loop is the fold over the atom pair list. -/
theorem minDistCell_eq_foldl_pairs (coords_i coords_j : Coords) (ri rj : ℕ × ℕ) :
    minDistCell coords_i coords_j ri rj
      = (atomPairs ri rj).foldl
          (fun m p => min m (euclid (coords_i p.1) (coords_j p.2))) LARGE_DIST := by
  rw [minDistCell, atomPairs, foldl_flatMap]
  congr 1
  funext acc a
  rw [List.foldl_map]

/-- A running minimum never exceeds its initial value. -/
theorem foldl_min_le_init {α : Type} (f : α → ℝ) :
    ∀ (l : List α) (a : ℝ), l.foldl (fun m x => min m (f x)) a ≤ a := by
  intro l
  induction l with
  | nil => intro a; exact le_refl a
  | cons hd tl ih =>
    intro a
    exact le_trans (ih (min a (f hd))) (min_le_left _ _)

/-- A running minimum is a lower bound of every visited value. -/
theorem foldl_min_le_mem {α : Type} (f : α → ℝ) :
    ∀ (l : List α) (a : ℝ) (x : α), x ∈ l →
      l.foldl (fun m x => min m (f x)) a ≤ f x := by
  intro l
  induction l with
  | nil => intro a x hx; cases hx
  | cons hd tl ih =>
    intro a x hx
    rcases List.mem_cons.mp hx with h | h
    · subst h
      exact le_trans (foldl_min_le_init f tl (min a (f x))) (min_le_right _ _)
    · exact ih (min a (f hd)) x h

/-- A running minimum is either the initial value or one of the visited
values. -/
theorem foldl_min_cases {α : Type} (f : α → ℝ) :
    ∀ (l : List α) (a : ℝ),
      l.foldl (fun m x => min m (f x)) a = a ∨
        ∃ x ∈ l, l.foldl (fun m x => min m (f x)) a = f x := by
  intro l
  induction l with
  | nil => intro a; exact Or.inl rfl
  | cons hd tl ih =>
    intro a
    rcases ih (min a (f hd)) with h | ⟨x, hx, h⟩
    · rcases min_cases a (f hd) with ⟨he, _⟩ | ⟨he, _⟩
      · exact Or.inl (by rw [List.foldl_cons, h, he])
      · exact Or.inr ⟨hd, List.mem_cons_self hd tl, by rw [List.foldl_cons, h, he]⟩
    · exact Or.inr ⟨x, List.mem_cons_of_mem hd hx, by rw [List.foldl_cons, h]⟩

/-- Membership in the inclusive Python atom range. -/
theorem mem_atomRange (r : ℕ × ℕ) (a : ℕ) :
    a ∈ atomRange r ↔ r.1 ≤ a ∧ a < r.1 + (r.2 + 1 - r.1) := by
  rw [atomRange]
  exact List.mem_range'_1

/-- Membership in the visited atom pair list, under nonempty ranges, is
membership in the rectangle of inclusive index ranges. -/
theorem mem_atomPairs (ri rj : ℕ × ℕ) (h1 : ri.1 ≤ ri.2) (h2 : rj.1 ≤ rj.2)
    (p : ℕ × ℕ) :
    p ∈ atomPairs ri rj ↔
      p ∈ Finset.Icc ri.1 ri.2 ×ˢ Finset.Icc rj.1 rj.2 := by
  rw [atomPairs, Finset.mem_product, Finset.mem_Icc, Finset.mem_Icc]
  constructor
  · intro hp
    rcases List.mem_flatMap.mp hp with ⟨a, ha, hp⟩
    rcases List.mem_map.mp hp with ⟨b, hb, hp⟩
    subst hp
    rw [mem_atomRange] at ha hb
    exact ⟨⟨ha.1, by omega⟩, ⟨hb.1, by omega⟩⟩
  · intro ⟨hpi, hpj⟩
    refine List.mem_flatMap.mpr ⟨p.1, ?_, ?_⟩
    · rw [mem_atomRange]; omega
    · refine List.mem_map.mpr ⟨p.2, ?_, ?_⟩
      · rw [mem_atomRange]; omega
      · exact Prod.mk.eta

/-- For nonempty atom ranges the inner loop computes exactly the minimum of
`LARGE_DIST` and the least atom pair distance of the rectangle. -/
theorem minDistCell_eq_min (coords_i coords_j : Coords) (ri rj : ℕ × ℕ)
    (h1 : ri.1 ≤ ri.2) (h2 : rj.1 ≤ rj.2) :
    minDistCell coords_i coords_j ri rj
      = min LARGE_DIST
          ((Finset.Icc ri.1 ri.2 ×ˢ Finset.Icc rj.1 rj.2).inf'
            (Finset.Nonempty.product (Finset.nonempty_Icc.mpr h1)
              (Finset.nonempty_Icc.mpr h2))
            (fun p => euclid (coords_i p.1) (coords_j p.2))) := by
  rw [minDistCell_eq_foldl_pairs]
  apply le_antisymm
  · apply le_min
    · exact foldl_min_le_init _ _ _
    · apply Finset.le_inf'
      intro p hp
      exact foldl_min_le_mem _ _ _ p ((mem_atomPairs ri rj h1 h2 p).mpr hp)
  · rcases foldl_min_cases
        (fun p : ℕ × ℕ => euclid (coords_i p.1) (coords_j p.2))
        (atomPairs ri rj) LARGE_DIST with h | ⟨p, hp, h⟩
    · rw [h]; exact min_le_left _ _
    · rw [h]
      exact le_trans (min_le_right _ _)
        (Finset.inf'_le _ ((mem_atomPairs ri rj h1 h2 p).mp hp))

/-- Euclidean distances are nonnegative. -/
theorem euclid_nonneg (p q : Point3) : 0 ≤ euclid p q :=
  Real.sqrt_nonneg _

/-- The Euclidean distance of a point to itself is zero. -/
theorem euclid_self (p : Point3) : euclid p p = 0 := by
  rw [euclid]
  simp

/-- A value of one cell of a residue annotation table, as pandas handles it:
either a string or an integer (the two cases the csv reader's type inference
distinguishes for identifier-like columns). -/
inductive CellVal : Type
  | str : String → CellVal
  | int : Int → CellVal
deriving DecidableEq

/-- Python's `str()` applied to a cell value. -/
def strOf : CellVal → String
  | CellVal.str s => s
  | CellVal.int z => toString z

/-- Text written into a csv cell by `DataFrame.to_csv` for this value. -/
def writeCell : CellVal → String
  | CellVal.str s => s
  | CellVal.int z => toString z

/-- Numeric value of a list of decimal digit characters. -/
def digitsVal (l : List Char) : ℕ :=
  l.foldl (fun n c => n * 10 + (c.toNat - 48)) 0

/-- Recognition of an integer literal (optional minus sign followed by at
least one decimal digit), the format the csv reader's type inference loads
as an integer. -/
def readsAsInt : List Char → Bool
  | [] => false
  | '-' :: cs => !cs.isEmpty && cs.all Char.isDigit
  | l => l.all Char.isDigit

/-- Integer value of a recognized integer literal. -/
def intValOf : List Char → Int
  | '-' :: cs => -(digitsVal cs : Int)
  | l => (digitsVal l : Int)

/-- Type inference of `pandas.read_csv` for a column with no explicit dtype:
a cell whose text is an integer literal is loaded as an integer, any other
text stays a string. -/
def parseCell (s : String) : CellVal :=
  if readsAsInt s.data then CellVal.int (intValOf s.data) else CellVal.str s

/-- The dictionary comprehension of the constructor,
`id_ : i for (i, id_) in enumerate(ids)`: the resulting mapping sends a key
to the index of its latest insertion, later duplicates overwriting earlier
ones.  Lookup of an absent key is `none` (`KeyError` in Python). -/
def buildIdMap (ids : List CellVal) (k : CellVal) : Option ℕ :=
  ids.enum.foldl (fun acc p => if p.2 = k then some p.1 else acc) none

/-- Result of a `DistanceMap.dist` call: a raised `KeyError` with its message,
the `np.nan` sentinel, or a looked-up matrix value. -/
inductive DistResult : Type
  | keyErr : String → DistResult
  | nan : DistResult
  | val : ℝ → DistResult

/-- The `DistanceMap` object: two residue annotation tables (modelled by
their `id` columns, the only column the class logic reads), the distance
matrix, and the symmetry flag.  The two id-to-index mappings derived in the
constructor are recovered by `buildIdMap` on the stored tables. -/
structure DistanceMap : Type where
  residues_i : List CellVal
  residues_j : List CellVal
  dist_matrix : ℕ → ℕ → ℝ
  symmetric : Bool

/-- The method `DistanceMap.dist(i, j, raise_na)`: coerce both identifiers
to strings, look each up in the axis mapping, raise `KeyError` (or return
`np.nan` when `raise_na` is false) on a miss, otherwise index the matrix. -/
def DistanceMap.dist (dm : DistanceMap) (i j : CellVal) (raise_na : Bool) :
    DistResult :=
  match buildIdMap dm.residues_i (CellVal.str (strOf i)) with
  | none =>
      if raise_na then
        DistResult.keyErr (strOf i ++ " not contained in first axis of distance map")
      else DistResult.nan
  | some ii =>
      match buildIdMap dm.residues_j (CellVal.str (strOf j)) with
      | none =>
          if raise_na then
            DistResult.keyErr (strOf j ++ " not contained in second axis of distance map")
          else DistResult.nan
      | some jj => DistResult.val (dm.dist_matrix ii jj)

/-- The method `DistanceMap.__getitem__`, which forwards a pair of
identifiers to `dist` with `raise_na=True`. -/
def DistanceMap.getitem (dm : DistanceMap) (identifiers : CellVal × CellVal) :
    DistResult :=
  dm.dist identifiers.1 identifiers.2 true

/-- Appending one id to the table makes its index win every earlier binding
of the same id (dictionary insertion overwrites). -/
theorem buildIdMap_concat (ids : List CellVal) (x k : CellVal) :
    buildIdMap (ids ++ [x]) k
      = if x = k then some ids.length else buildIdMap ids k := by
  by_cases hx : x = k
  · simp [buildIdMap, List.enum_append, List.foldl_append, hx]
  · simp [buildIdMap, List.enum_append, List.foldl_append, hx]

/-- Last-wins characterization of the constructor's id map: the id found at
position `q`, with no later occurrence, is mapped to index `q`. -/
theorem buildIdMap_lastwins :
    ∀ (ids : List CellVal) (k : CellVal) (q : ℕ),
      ids[q]? = some k → (∀ r, q < r → ids[r]? ≠ some k) →
      buildIdMap ids k = some q := by
  intro ids
  induction ids using List.reverseRecOn with
  | nil =>
    intro k q hq _
    simp at hq
  | append_singleton l x ih =>
    intro k q hq hlast
    have hqlen : q < l.length + 1 := by
      have := List.getElem?_eq_some_iff.mp hq
      obtain ⟨hlt, _⟩ := this
      simpa using hlt
    rw [buildIdMap_concat]
    by_cases hx : x = k
    · have hql : q = l.length := by
        by_contra hne
        have hqlt : q < l.length := by omega
        exact hlast l.length hqlt
          (by rw [List.getElem?_concat_length]; rw [hx])
      rw [if_pos hx, hql]
    · have hqlt : q < l.length := by
        rcases Nat.lt_or_ge q l.length with h | h
        · exact h
        · exfalso
          have hql : q = l.length := by omega
          rw [hql, List.getElem?_concat_length] at hq
          exact hx (Option.some.inj hq)
      rw [if_neg hx]
      refine ih k q (by rw [← List.getElem?_append_left hqlt]; exact hq) ?_
      intro r hr hrk
      rcases Nat.lt_or_ge r l.length with h | h
      · exact hlast r hr (by rw [List.getElem?_append_left h]; exact hrk)
      · rw [List.getElem?_eq_none h] at hrk
        cases hrk

/-- One atom row of the coordinate table of a chain: its residue grouping
key and its 3D position.  The positional row index is the list position. -/
structure Atom : Type where
  residue_index : ℕ
  x : ℝ
  y : ℝ
  z : ℝ

/-- External chain collaborator: the residue annotation table (modelled by
its `id` column) and the atom coordinate table. -/
structure Chain : Type where
  residues : List CellVal
  coords : List Atom

/-- The classmethod `_extract_coords`: stack the coordinate columns into a
position-indexed matrix, and for every distinct `residue_index` key (in the
sorted key order of the groupby) record the positional index of the first
and last atom row of that group. -/
def _extract_coords (coords : List Atom) : List (ℕ × ℕ) × Coords :=
  (((coords.map Atom.residue_index).toFinset.sort (· ≤ ·)).map
      (fun g => (coords.findIdx (fun a => a.residue_index == g),
        coords.length - 1 - coords.reverse.findIdx (fun a => a.residue_index == g))),
   fun a =>
    match coords[a]? with
    | some atm => (atm.x, atm.y, atm.z)
    | none => (0, 0, 0))

/-- The classmethod `DistanceMap.from_coords(chain_i, chain_j=None)`: with no
second chain, reuse the first chain on both axes and mark the map symmetric;
otherwise extract the second chain separately and mark it asymmetric.  The
matrix is computed by the kernel on the extracted ranges and coordinates. -/
noncomputable def DistanceMap.from_coords (chain_i : Chain)
    (chain_j : Option Chain) : DistanceMap :=
  let ec_i := _extract_coords chain_i.coords
  match chain_j with
  | none =>
      { residues_i := chain_i.residues
        residues_j := chain_i.residues
        dist_matrix := _distances ec_i.1 ec_i.2 ec_i.1 ec_i.2 true
        symmetric := true }
  | some cj =>
      let ec_j := _extract_coords cj.coords
      { residues_i := chain_i.residues
        residues_j := cj.residues
        dist_matrix := _distances ec_i.1 ec_i.2 ec_j.1 ec_j.2 false
        symmetric := false }

/-- The csv residue table written by `to_file`: a symmetric map stores one
table with no `axis` column, an asymmetric map stores rows tagged with their
axis value.  Cells are the written text. -/
inductive ResiduesCsv : Type
  | sym : List String → ResiduesCsv
  | asym : List (String × String) → ResiduesCsv

/-- The on-disk pair written by `to_file`: the `.csv` residue table and the
`.npy` array (the binary format round-trips the float matrix exactly, so the
model stores the matrix itself). -/
structure DMFile : Type where
  csv : ResiduesCsv
  npy : ℕ → ℕ → ℝ

/-- The method `DistanceMap.to_file`: a symmetric map writes `residues_i`
alone; an asymmetric map appends the two tables tagged `axis='i'` and
`axis='j'`. -/
def DistanceMap.to_file (dm : DistanceMap) : DMFile :=
  if dm.symmetric then
    { csv := ResiduesCsv.sym (dm.residues_i.map writeCell)
      npy := dm.dist_matrix }
  else
    { csv := ResiduesCsv.asym
        ((dm.residues_i.map fun r => ("i", writeCell r))
          ++ (dm.residues_j.map fun r => ("j", writeCell r)))
      npy := dm.dist_matrix }

/-- The classmethod `DistanceMap.from_file`: reload the csv (cells of columns
without a pinned dtype go through the reader's type inference `parseCell`),
detect symmetry by the presence of the `axis` column, and split the rows by
axis tag in the asymmetric case. -/
def DistanceMap.from_file (f : DMFile) : DistanceMap :=
  match f.csv with
  | ResiduesCsv.sym ids =>
      { residues_i := ids.map parseCell
        residues_j := ids.map parseCell
        dist_matrix := f.npy
        symmetric := true }
  | ResiduesCsv.asym rows =>
      { residues_i := (rows.filter fun r => r.1 == "i").map fun r => parseCell r.2
        residues_j := (rows.filter fun r => r.1 == "j").map fun r => parseCell r.2
        dist_matrix := f.npy
        symmetric := false }

/-- The method `DistanceMap.contacts`: its body is `raise NotImplementedError`. -/
def DistanceMap.contacts (dm : DistanceMap) (max_dist : ℝ)
    (min_dist : Option ℝ) : Except String (List (CellVal × CellVal)) :=
  Except.error "NotImplementedError"

/-- The function `aggregate` as declared in the class body: it takes no
`self` parameter and its body is `raise NotImplementedError`. -/
def DistanceMap.aggregate : Except String Unit :=
  Except.error "NotImplementedError"

/-- A bound method call `dm.aggregate()` in Python passes `self` to the
zero-parameter function, so the call fails with a `TypeError` before the
body runs. -/
def DistanceMap.aggregate_bound_call (dm : DistanceMap) : Except String Unit :=
  Except.error "TypeError: aggregate() takes 0 positional arguments but 1 was given"

/-- In-range cell of an asymmetric kernel call: always the freshly computed
inner-loop minimum. -/
theorem _distances_false_cell (ri rj : List (ℕ × ℕ)) (ci cj : Coords)
    (i j : ℕ) (hi : i < ri.length) (hj : j < rj.length) :
    _distances ri ci rj cj false i j
      = minDistCell ci cj (ri.getD i (0, 0)) (rj.getD j (0, 0)) := by
  rw [_distances_eq ri rj ci cj false (fun h => absurd h Bool.false_ne_true)]
  simp only [distSpec, specCell]
  rw [if_pos ⟨hi, hj⟩, if_neg (fun h => Bool.false_ne_true h.1)]

/-- In-range diagonal cell of a symmetric kernel call: the self-copy leaves
the zero initial value in place, whatever the coordinates are. -/
theorem _distances_true_diag (r : List (ℕ × ℕ)) (ci cj : Coords)
    (i : ℕ) (hi : i < r.length) :
    _distances r ci r cj true i i = 0 := by
  rw [_distances_eq r r ci cj true (fun _ => rfl)]
  simp [distSpec, specCell, hi]

/-- The output matrix of a symmetric kernel call on a single chain is a
symmetric matrix, at every pair of indices. -/
theorem _distances_true_symm (r : List (ℕ × ℕ)) (ci cj : Coords) (i j : ℕ) :
    _distances r ci r cj true i j = _distances r ci r cj true j i := by
  rcases Nat.lt_trichotomy i j with h | h | h
  · rw [_distances_eq r r ci cj true (fun _ => rfl)]
    by_cases hin : i < r.length ∧ j < r.length
    · have h1 : ¬ j ≤ i := by omega
      have h2 : i ≤ j := by omega
      have h3 : ¬ j = i := by omega
      simp [distSpec, specCell, hin.1, hin.2, h1, h2, h3]
    · have hin' : ¬ (j < r.length ∧ i < r.length) := fun hh => hin ⟨hh.2, hh.1⟩
      simp [distSpec, hin, hin']
  · subst h; rfl
  · rw [_distances_eq r r ci cj true (fun _ => rfl)]
    by_cases hin : i < r.length ∧ j < r.length
    · have h1 : j ≤ i := by omega
      have h2 : ¬ i ≤ j := by omega
      have h3 : ¬ i = j := by omega
      simp [distSpec, specCell, hin.1, hin.2, h1, h2, h3]
    · have hin' : ¬ (j < r.length ∧ i < r.length) := fun hh => hin ⟨hh.2, hh.1⟩
      simp [distSpec, hin, hin']

/-- Atom ranges of the spec scenario chain: residue A owns atoms 0 and 1,
residue B owns atom 2. -/
def resTwoRes : List (ℕ × ℕ) := [(0, 1), (2, 2)]

/-- Coordinates of the spec scenario chain: atoms at the origin, at
`(1,0,0)` and at `(3,0,0)`. -/
noncomputable def coordsTwoRes : Coords := fun a =>
  if a = 0 then ((0 : ℝ), (0 : ℝ), (0 : ℝ))
  else if a = 1 then ((1 : ℝ), (0 : ℝ), (0 : ℝ))
  else ((3 : ℝ), (0 : ℝ), (0 : ℝ))

/-- One single-atom residue. -/
def resOne : List (ℕ × ℕ) := [(0, 0)]

/-- A chain whose only atom sits at the origin. -/
noncomputable def coordsFarA : Coords := fun _ => ((0 : ℝ), (0 : ℝ), (0 : ℝ))

/-- A chain whose only atom sits two million length units away. -/
noncomputable def coordsFarB : Coords := fun _ => ((2000000 : ℝ), (0 : ℝ), (0 : ℝ))

/-- The distance between the two far atoms evaluates to two million. -/
theorem euclid_far_eval : euclid (coordsFarA 0) (coordsFarB 0) = 2000000 := by
  rw [coordsFarA, coordsFarB, euclid]
  have hsum : ((0 : ℝ) - 2000000) ^ 2 + ((0 : ℝ) - 0) ^ 2 + ((0 : ℝ) - 0) ^ 2
      = (2000000 : ℝ) ^ 2 := by norm_num
  rw [hsum, Real.sqrt_sq (by norm_num)]

/-- C1 counterexample: the claim is false on the code.  In the spec's own
two-residue scenario the symmetric kernel output has `D[A,A] = 0`, the
untouched zero initial value produced by the self-copy of the `i >= j`
branch, and not `1.0`, the distance between residue A's two distinct
atoms. -/
theorem diag_scenario_zero_not_one :
    _distances resTwoRes coordsTwoRes resTwoRes coordsTwoRes true 0 0 = 0
    ∧ ¬ (_distances resTwoRes coordsTwoRes resTwoRes coordsTwoRes true 0 0 = 1) := by
  have h0 : _distances resTwoRes coordsTwoRes resTwoRes coordsTwoRes true 0 0 = 0 :=
    _distances_true_diag resTwoRes coordsTwoRes coordsTwoRes 0 (by decide)
  refine ⟨h0, ?_⟩
  rw [h0]
  norm_num

/-- C1 (amended): in every symmetric kernel call the diagonal entry is left
at the zero initial value by the self-copy of the `i >= j` branch; with a
nonempty atom range this coincides with the capped minimum over all atom
pairs drawn from residue `i`'s range on both axes, because the pair of an
atom with itself has distance zero. -/
theorem symmetric_diag_left_at_zero (r : List (ℕ × ℕ)) (c : Coords) (i : ℕ)
    (hi : i < r.length)
    (hr : (r.getD i (0, 0)).1 ≤ (r.getD i (0, 0)).2) :
    _distances r c r c true i i = 0
    ∧ min LARGE_DIST
        ((Finset.Icc (r.getD i (0, 0)).1 (r.getD i (0, 0)).2 ×ˢ
          Finset.Icc (r.getD i (0, 0)).1 (r.getD i (0, 0)).2).inf'
          (Finset.Nonempty.product (Finset.nonempty_Icc.mpr hr)
            (Finset.nonempty_Icc.mpr hr))
          (fun p => euclid (c p.1) (c p.2))) = 0 := by
  refine ⟨_distances_true_diag r c c i hi, ?_⟩
  have hmem : ((r.getD i (0, 0)).1, (r.getD i (0, 0)).1)
      ∈ Finset.Icc (r.getD i (0, 0)).1 (r.getD i (0, 0)).2 ×ˢ
        Finset.Icc (r.getD i (0, 0)).1 (r.getD i (0, 0)).2 := by
    rw [Finset.mem_product]
    constructor <;> · rw [Finset.mem_Icc]; exact ⟨le_refl _, hr⟩
  have hinf : (Finset.Icc (r.getD i (0, 0)).1 (r.getD i (0, 0)).2 ×ˢ
        Finset.Icc (r.getD i (0, 0)).1 (r.getD i (0, 0)).2).inf'
        (Finset.Nonempty.product (Finset.nonempty_Icc.mpr hr)
          (Finset.nonempty_Icc.mpr hr))
        (fun p => euclid (c p.1) (c p.2)) = 0 := by
    apply le_antisymm
    · exact le_trans (Finset.inf'_le _ hmem) (le_of_eq (euclid_self _))
    · exact Finset.le_inf' _ _ (fun p _ => euclid_nonneg _ _)
  rw [hinf]
  exact min_eq_right (by rw [LARGE_DIST]; norm_num)

/-- Witness for the amended C1 at residue B of the spec scenario. -/
theorem symmetric_diag_left_at_zero_witness :
    _distances resTwoRes coordsTwoRes resTwoRes coordsTwoRes true 1 1 = 0
    ∧ min LARGE_DIST
        ((Finset.Icc (resTwoRes.getD 1 (0, 0)).1 (resTwoRes.getD 1 (0, 0)).2 ×ˢ
          Finset.Icc (resTwoRes.getD 1 (0, 0)).1 (resTwoRes.getD 1 (0, 0)).2).inf'
          (Finset.Nonempty.product (Finset.nonempty_Icc.mpr (by decide))
            (Finset.nonempty_Icc.mpr (by decide)))
          (fun p => euclid (coordsTwoRes p.1) (coordsTwoRes p.2))) = 0 :=
  symmetric_diag_left_at_zero resTwoRes coordsTwoRes 1 (by decide) (by decide)

/-- C2 counterexample: the claim is false on the code as universally
stated.  With a single atom pair two million length units apart, the
asymmetric kernel returns the cap `1000000` and not the true minimum
atom-pair distance `2000000`. -/
theorem asym_cell_cap_counterexample :
    _distances resOne coordsFarA resOne coordsFarB false 0 0 = 1000000
    ∧ euclid (coordsFarA 0) (coordsFarB 0) = 2000000
    ∧ ¬ (_distances resOne coordsFarA resOne coordsFarB false 0 0
          = euclid (coordsFarA 0) (coordsFarB 0)) := by
  have hcell : _distances resOne coordsFarA resOne coordsFarB false 0 0
      = minDistCell coordsFarA coordsFarB (0, 0) (0, 0) :=
    _distances_false_cell resOne resOne coordsFarA coordsFarB 0 0
      (by decide) (by decide)
  have hmdc : minDistCell coordsFarA coordsFarB (0, 0) (0, 0)
      = min LARGE_DIST (euclid (coordsFarA 0) (coordsFarB 0)) := rfl
  have hval : _distances resOne coordsFarA resOne coordsFarB false 0 0 = 1000000 := by
    rw [hcell, hmdc, euclid_far_eval]
    simp only [LARGE_DIST]
    exact min_eq_left (by norm_num)
  refine ⟨hval, euclid_far_eval, ?_⟩
  rw [hval, euclid_far_eval]
  norm_num

/-- C2 (amended): every in-range asymmetric kernel entry with nonempty atom
ranges equals the minimum of the cap `LARGE_DIST` and the true minimum
atom-pair Euclidean distance over the residue pair's atom rectangle. -/
theorem asym_cell_eq_capped_min (ri rj : List (ℕ × ℕ)) (ci cj : Coords)
    (i j : ℕ) (hi : i < ri.length) (hj : j < rj.length)
    (h1 : (ri.getD i (0, 0)).1 ≤ (ri.getD i (0, 0)).2)
    (h2 : (rj.getD j (0, 0)).1 ≤ (rj.getD j (0, 0)).2) :
    _distances ri ci rj cj false i j
      = min LARGE_DIST
          ((Finset.Icc (ri.getD i (0, 0)).1 (ri.getD i (0, 0)).2 ×ˢ
            Finset.Icc (rj.getD j (0, 0)).1 (rj.getD j (0, 0)).2).inf'
            (Finset.Nonempty.product (Finset.nonempty_Icc.mpr h1)
              (Finset.nonempty_Icc.mpr h2))
            (fun p => euclid (ci p.1) (cj p.2))) := by
  rw [_distances_false_cell ri rj ci cj i j hi hj]
  exact minDistCell_eq_min ci cj _ _ h1 h2

/-- Witness for the amended C2 on the spec scenario chain used on both
axes asymmetrically, at the residue pair (A, B). -/
theorem asym_cell_eq_capped_min_witness :
    _distances resTwoRes coordsTwoRes resTwoRes coordsTwoRes false 0 1
      = min LARGE_DIST
          ((Finset.Icc (resTwoRes.getD 0 (0, 0)).1 (resTwoRes.getD 0 (0, 0)).2 ×ˢ
            Finset.Icc (resTwoRes.getD 1 (0, 0)).1 (resTwoRes.getD 1 (0, 0)).2).inf'
            (Finset.Nonempty.product (Finset.nonempty_Icc.mpr (by decide))
              (Finset.nonempty_Icc.mpr (by decide)))
            (fun p => euclid (coordsTwoRes p.1) (coordsTwoRes p.2))) :=
  asym_cell_eq_capped_min resTwoRes resTwoRes coordsTwoRes coordsTwoRes 0 1
    (by decide) (by decide) (by decide) (by decide)

/-- C10: the running minimum of each computed cell starts at the constant
`LARGE_DIST = 1000000`, so the entry equals the capped true minimum, and
when every atom pair of the residue pair is strictly farther apart than the
constant, the returned entry is exactly the constant. -/
theorem kernel_cap_at_large_dist (ri rj : List (ℕ × ℕ)) (ci cj : Coords)
    (i j : ℕ) (hi : i < ri.length) (hj : j < rj.length)
    (h1 : (ri.getD i (0, 0)).1 ≤ (ri.getD i (0, 0)).2)
    (h2 : (rj.getD j (0, 0)).1 ≤ (rj.getD j (0, 0)).2) :
    LARGE_DIST = (1000000 : ℝ)
    ∧ _distances ri ci rj cj false i j
        = min LARGE_DIST
            ((Finset.Icc (ri.getD i (0, 0)).1 (ri.getD i (0, 0)).2 ×ˢ
              Finset.Icc (rj.getD j (0, 0)).1 (rj.getD j (0, 0)).2).inf'
              (Finset.Nonempty.product (Finset.nonempty_Icc.mpr h1)
                (Finset.nonempty_Icc.mpr h2))
              (fun p => euclid (ci p.1) (cj p.2)))
    ∧ ((∀ p ∈ Finset.Icc (ri.getD i (0, 0)).1 (ri.getD i (0, 0)).2 ×ˢ
            Finset.Icc (rj.getD j (0, 0)).1 (rj.getD j (0, 0)).2,
          LARGE_DIST < euclid (ci p.1) (cj p.2)) →
        _distances ri ci rj cj false i j = LARGE_DIST) := by
  have hmain : _distances ri ci rj cj false i j
      = min LARGE_DIST
          ((Finset.Icc (ri.getD i (0, 0)).1 (ri.getD i (0, 0)).2 ×ˢ
            Finset.Icc (rj.getD j (0, 0)).1 (rj.getD j (0, 0)).2).inf'
            (Finset.Nonempty.product (Finset.nonempty_Icc.mpr h1)
              (Finset.nonempty_Icc.mpr h2))
            (fun p => euclid (ci p.1) (cj p.2))) := by
    rw [_distances_false_cell ri rj ci cj i j hi hj]
    exact minDistCell_eq_min ci cj _ _ h1 h2
  refine ⟨rfl, hmain, ?_⟩
  intro hfar
  rw [hmain]
  exact min_eq_left (le_of_lt ((Finset.lt_inf'_iff _).mpr hfar))

/-- Witness for C10: a single residue pair two million apart is reported at
exactly the cap. -/
theorem kernel_cap_at_large_dist_witness :
    _distances resOne coordsFarA resOne coordsFarB false 0 0 = LARGE_DIST :=
  (kernel_cap_at_large_dist resOne resOne coordsFarA coordsFarB 0 0
      (by decide) (by decide) (by decide) (by decide)).2.2
    (fun p hp => by
      have hfst := Finset.mem_Icc.mp (Finset.mem_product.mp hp).1
      have hsnd := Finset.mem_Icc.mp (Finset.mem_product.mp hp).2
      have hres : resOne.getD 0 (0, 0) = (0, 0) := rfl
      rw [hres] at hfst hsnd
      have hp1 : p.1 = 0 := by omega
      have hp2 : p.2 = 0 := by omega
      have he : euclid (coordsFarA p.1) (coordsFarB p.2) = 2000000 := by
        rw [hp1, hp2]
        exact euclid_far_eval
      rw [he]
      simp only [LARGE_DIST]
      norm_num)

/-- C3: a distance map built by `from_coords` with no second chain has a
symmetric matrix at every index pair, and `dist` agrees on swapped
identifiers whenever both identifiers are present on the (shared) axes. -/
theorem from_coords_dist_symm (c : Chain) (i j : CellVal) (ii jj : ℕ)
    (hi : buildIdMap c.residues (CellVal.str (strOf i)) = some ii)
    (hj : buildIdMap c.residues (CellVal.str (strOf j)) = some jj) :
    (DistanceMap.from_coords c none).dist i j true
      = (DistanceMap.from_coords c none).dist j i true
    ∧ ∀ a b, (DistanceMap.from_coords c none).dist_matrix a b
        = (DistanceMap.from_coords c none).dist_matrix b a := by
  have hsym : ∀ a b, (DistanceMap.from_coords c none).dist_matrix a b
      = (DistanceMap.from_coords c none).dist_matrix b a := by
    intro a b
    exact _distances_true_symm (_extract_coords c.coords).1
      (_extract_coords c.coords).2 (_extract_coords c.coords).2 a b
  refine ⟨?_, hsym⟩
  have hresi : (DistanceMap.from_coords c none).residues_i = c.residues := rfl
  have hresj : (DistanceMap.from_coords c none).residues_j = c.residues := rfl
  simp only [DistanceMap.dist, hresi, hresj, hi, hj]
  exact congrArg DistResult.val (hsym ii jj)

/-- A concrete chain realizing the spec scenario for witnesses. -/
noncomputable def chainW : Chain :=
  { residues := [CellVal.str "A", CellVal.str "B"]
    coords := [⟨0, 0, 0, 0⟩, ⟨0, 1, 0, 0⟩, ⟨1, 3, 0, 0⟩] }

/-- Witness for C3 on the concrete scenario chain. -/
theorem from_coords_dist_symm_witness :
    (DistanceMap.from_coords chainW none).dist
        (CellVal.str "A") (CellVal.str "B") true
      = (DistanceMap.from_coords chainW none).dist
        (CellVal.str "B") (CellVal.str "A") true
    ∧ ∀ a b, (DistanceMap.from_coords chainW none).dist_matrix a b
        = (DistanceMap.from_coords chainW none).dist_matrix b a :=
  from_coords_dist_symm chainW (CellVal.str "A") (CellVal.str "B") 0 1
    (by decide) (by decide)

/-- C5: the lookup contract of `dist`.  If either string-coerced identifier
is absent from its axis mapping, `dist` raises a `KeyError` under
`raise_na=True` and returns the `np.nan` sentinel under `raise_na=False`;
when both are present it returns the matrix entry at the mapped indices. -/
theorem dist_lookup_contract (dm : DistanceMap) (i j : CellVal) :
    ((buildIdMap dm.residues_i (CellVal.str (strOf i)) = none
        ∨ buildIdMap dm.residues_j (CellVal.str (strOf j)) = none) →
      (∃ msg, dm.dist i j true = DistResult.keyErr msg)
        ∧ dm.dist i j false = DistResult.nan)
    ∧ (∀ ii jj, buildIdMap dm.residues_i (CellVal.str (strOf i)) = some ii →
        buildIdMap dm.residues_j (CellVal.str (strOf j)) = some jj →
        dm.dist i j true = DistResult.val (dm.dist_matrix ii jj)
          ∧ dm.dist i j false = DistResult.val (dm.dist_matrix ii jj)) := by
  constructor
  · intro h
    match hmi : buildIdMap dm.residues_i (CellVal.str (strOf i)) with
    | none =>
        refine ⟨⟨strOf i ++ " not contained in first axis of distance map", ?_⟩, ?_⟩ <;>
          simp [DistanceMap.dist, hmi]
    | some ii =>
        match hmj : buildIdMap dm.residues_j (CellVal.str (strOf j)) with
        | none =>
            refine ⟨⟨strOf j ++ " not contained in second axis of distance map", ?_⟩, ?_⟩ <;>
              simp [DistanceMap.dist, hmi, hmj]
        | some jj =>
            exfalso
            rcases h with h | h
            · rw [h] at hmi; cases hmi
            · rw [h] at hmj; cases hmj
  · intro ii jj hmi hmj
    constructor <;> simp [DistanceMap.dist, hmi, hmj]

/-- A concrete one-residue map for the C5 witness. -/
noncomputable def dmW5 : DistanceMap :=
  { residues_i := [CellVal.str "A"]
    residues_j := [CellVal.str "A"]
    dist_matrix := fun _ _ => 0
    symmetric := true }

/-- Witness for C5: a missing identifier raises under `raise_na=True` and
returns the sentinel under `raise_na=False`. -/
theorem dist_lookup_contract_witness :
    (∃ msg, dmW5.dist (CellVal.str "Q") (CellVal.str "A") true
        = DistResult.keyErr msg)
    ∧ dmW5.dist (CellVal.str "Q") (CellVal.str "A") false = DistResult.nan :=
  (dist_lookup_contract dmW5 (CellVal.str "Q") (CellVal.str "A")).1
    (Or.inl (by decide))

/-- C6: `from_coords` with an omitted second chain reuses the first chain's
residue table on both axes, computes the matrix from the first chain's
extracted coordinates on both axes, and sets the symmetric flag; with a
provided second chain the flag is false and each axis keeps its own
table. -/
theorem from_coords_axes (c ci cj : Chain) :
    ((DistanceMap.from_coords c none).symmetric = true
      ∧ (DistanceMap.from_coords c none).residues_i = c.residues
      ∧ (DistanceMap.from_coords c none).residues_j = c.residues
      ∧ (DistanceMap.from_coords c none).dist_matrix
          = _distances (_extract_coords c.coords).1 (_extract_coords c.coords).2
              (_extract_coords c.coords).1 (_extract_coords c.coords).2 true)
    ∧ (DistanceMap.from_coords ci (some cj)).symmetric = false
    ∧ (DistanceMap.from_coords ci (some cj)).residues_i = ci.residues
    ∧ (DistanceMap.from_coords ci (some cj)).residues_j = cj.residues :=
  ⟨⟨rfl, rfl, rfl, rfl⟩, rfl, rfl, rfl⟩

/-- C7: subscript access forwards to `dist` with `raise_na=True` and in
particular never returns the `np.nan` sentinel. -/
theorem getitem_eq_dist_raise (dm : DistanceMap) (p : CellVal × CellVal) :
    dm.getitem p = dm.dist p.1 p.2 true
    ∧ dm.getitem p ≠ DistResult.nan := by
  refine ⟨rfl, ?_⟩
  match hmi : buildIdMap dm.residues_i (CellVal.str (strOf p.1)) with
  | none => simp [DistanceMap.getitem, DistanceMap.dist, hmi]
  | some ii =>
      match hmj : buildIdMap dm.residues_j (CellVal.str (strOf p.2)) with
      | none => simp [DistanceMap.getitem, DistanceMap.dist, hmi, hmj]
      | some jj => simp [DistanceMap.getitem, DistanceMap.dist, hmi, hmj]

/-- C8: the stubs fail explicitly.  `contacts` raises `NotImplementedError`
and never returns normally; a bound call of the parameterless `aggregate`
fails before its body runs and never returns normally. -/
theorem stubs_fail_explicitly (dm : DistanceMap) (max_dist : ℝ)
    (min_dist : Option ℝ) :
    dm.contacts max_dist min_dist = Except.error "NotImplementedError"
    ∧ (∀ x, dm.contacts max_dist min_dist ≠ Except.ok x)
    ∧ (∃ msg, DistanceMap.aggregate_bound_call dm = Except.error msg)
    ∧ (∀ u, DistanceMap.aggregate_bound_call dm ≠ Except.ok u) :=
  ⟨rfl, fun _ h => Except.noConfusion h, ⟨_, rfl⟩, fun _ h => Except.noConfusion h⟩

/-- C9: in a residue table with duplicate ids, the constructor's mapping
sends the duplicated id to the index of its last occurrence, and `dist`
reads the matrix at that last index. -/
theorem duplicate_id_last_wins (dm : DistanceMap) (s : String) (q jj : ℕ)
    (j : CellVal)
    (hq : dm.residues_i[q]? = some (CellVal.str s))
    (hlast : ∀ r, q < r → dm.residues_i[r]? ≠ some (CellVal.str s))
    (hj : buildIdMap dm.residues_j (CellVal.str (strOf j)) = some jj) :
    buildIdMap dm.residues_i (CellVal.str s) = some q
    ∧ dm.dist (CellVal.str s) j true = DistResult.val (dm.dist_matrix q jj) := by
  have hmap : buildIdMap dm.residues_i (CellVal.str s) = some q :=
    buildIdMap_lastwins dm.residues_i (CellVal.str s) q hq hlast
  refine ⟨hmap, ?_⟩
  have hstr : CellVal.str (strOf (CellVal.str s)) = CellVal.str s := rfl
  simp [DistanceMap.dist, hstr, hmap, hj]

/-- A concrete map with a duplicated id for the C9 witness. -/
noncomputable def dmW9 : DistanceMap :=
  { residues_i := [CellVal.str "A", CellVal.str "B", CellVal.str "A"]
    residues_j := [CellVal.str "B"]
    dist_matrix := fun _ _ => 0
    symmetric := false }

/-- Witness for C9: the duplicated id `A` resolves to index 2, its last
occurrence, and `dist` uses that row. -/
theorem duplicate_id_last_wins_witness :
    buildIdMap dmW9.residues_i (CellVal.str "A") = some 2
    ∧ dmW9.dist (CellVal.str "A") (CellVal.str "B") true
        = DistResult.val (dmW9.dist_matrix 2 0) :=
  duplicate_id_last_wins dmW9 "A" 2 0 (CellVal.str "B") (by decide)
    (fun r hr => by
      have hlen : dmW9.residues_i.length ≤ r := by
        have : dmW9.residues_i.length = 3 := rfl
        omega
      rw [List.getElem?_eq_none hlen]
      intro h
      cases h)
    (by decide)

/-- A symmetric map whose single residue id is the digit string seven, the
C4 failing input. -/
noncomputable def dmNumericId : DistanceMap :=
  { residues_i := [CellVal.str "7"]
    residues_j := [CellVal.str "7"]
    dist_matrix := fun _ _ => 0
    symmetric := true }

/-- C4 failing input: writing and reloading a map whose id column holds the
string seven returns the integer seven instead (the reader pins dtypes for
the other columns but not for `id`), so the reloaded residue table differs
from the original, while the matrix and the symmetric flag do round-trip. -/
theorem roundtrip_id_string_fails :
    (DistanceMap.from_file (DistanceMap.to_file dmNumericId)).residues_i
      = [CellVal.int 7]
    ∧ (DistanceMap.from_file (DistanceMap.to_file dmNumericId)).residues_i
        ≠ dmNumericId.residues_i
    ∧ (DistanceMap.from_file (DistanceMap.to_file dmNumericId)).dist_matrix
        = dmNumericId.dist_matrix
    ∧ (DistanceMap.from_file (DistanceMap.to_file dmNumericId)).symmetric
        = dmNumericId.symmetric := by
  refine ⟨by decide, by decide, rfl, rfl⟩

end Distances
